import Mathlib

/-!
Shallow embedding of src/OOP/order.py and proofs about its specified
properties. Python ints are modelled as Lean Int, Python lists as Lean
List, the destination-keyed dict (insertion ordered) as an association
list, and a propagating exception (ValueError in list.remove) as an
Option-valued result.
-/

namespace OOP

/-- Order item requested by a customer (class OrderItem). -/
structure OrderItem where
  customer : String
  name : String
  quantity : Int
  one_item_volume : Int
deriving DecidableEq

/-- OrderItem.total_volume: quantity * one_item_volume. -/
def OrderItem.total_volume (i : OrderItem) : Int :=
  i.quantity * i.one_item_volume

/-- Combination of order items of one customer (class Order). The Python
destination defaults to None, modelled as Option String. -/
structure Order where
  order_items : List OrderItem
  destination : Option String := none
deriving DecidableEq

/-- Order.total_quantity: sum of quantities of all items in the order. -/
def Order.total_quantity (o : Order) : Int :=
  (o.order_items.map (fun i => i.quantity)).sum

/-- Order.total_volume: total volume of all items in the order. -/
def Order.total_volume (o : Order) : Int :=
  (o.order_items.map OrderItem.total_volume).sum

/-- Container to transport orders (class Container). -/
structure Container where
  volume : Int
  orders : List Order := []
deriving DecidableEq

/-- Container.volume_left: the remaining volume in the container. -/
def Container.volume_left (c : Container) : Int :=
  c.volume - (c.orders.map Order.total_volume).sum

/-- State of class OrderAggregator: the pending pool of order items. -/
structure OrderAggregator where
  order_items : List OrderItem := []
deriving DecidableEq

/-- OrderAggregator.add_item: append an item to the pool. -/
def OrderAggregator.add_item (self : OrderAggregator) (item : OrderItem) :
    OrderAggregator :=
  { self with order_items := self.order_items ++ [item] }

/-- Python list.remove(x): drop the first element equal to x; none models
the ValueError raised when x is absent. -/
def removeFirst (xs : List OrderItem) (x : OrderItem) : Option (List OrderItem) :=
  match xs with
  | [] => none
  | y :: ys => if y = x then some ys else (removeFirst ys x).map (fun zs => y :: zs)

/-- The loop body of OrderAggregator.remove_items: remove each given item in
turn; none models the propagating ValueError when some item is missing. -/
def remove_items_pool (pool : List OrderItem) (items : List OrderItem) :
    Option (List OrderItem) :=
  match items with
  | [] => some pool
  | i :: rest => (removeFirst pool i).bind (fun p => remove_items_pool p rest)

/-- OrderAggregator.remove_items. -/
def OrderAggregator.remove_items (self : OrderAggregator) (items : List OrderItem) :
    Option OrderAggregator :=
  (remove_items_pool self.order_items items).map (fun p => { order_items := p })

/-- OrderAggregator.aggregate_order: select the customer's pending items; if
their aggregate quantity and volume are within the limits, build an Order of
exactly those items and remove them from the pool, otherwise return None
(modelled as the inner Option) and leave the pool untouched. The outer
Option models an uncaught exception, which never occurs on this path. -/
def OrderAggregator.aggregate_order (self : OrderAggregator) (customer : String)
    (max_items_quantity max_volume : Int) :
    Option (Option Order × OrderAggregator) :=
  let items := self.order_items.filter (fun i => decide (i.customer = customer))
  let total_quantity := (items.map (fun i => i.quantity)).sum
  let total_volume := (items.map OrderItem.total_volume).sum
  if total_quantity ≤ max_items_quantity ∧ total_volume ≤ max_volume then
    match self.remove_items items with
    | some agg => some (some { order_items := items }, agg)
    | none => none
  else
    some (none, self)

theorem remove_items_pool_cons_of_ne (x : OrderItem) (pool items : List OrderItem)
    (h : ∀ i ∈ items, i ≠ x) :
    remove_items_pool (x :: pool) items =
      (remove_items_pool pool items).map (fun p => x :: p) := by
  induction items generalizing pool with
  | nil => rfl
  | cons i rest ih =>
    have hix : i ≠ x := h i (List.mem_cons_self i rest)
    simp only [remove_items_pool, removeFirst]
    rw [if_neg (fun hxi => hix hxi.symm)]
    cases hrf : removeFirst pool i with
    | none => simp [hrf]
    | some p =>
      simp only [Option.map_some, Option.bind_some, Option.some_bind]
      exact ih p (fun j hj => h j (List.mem_cons_of_mem i hj))

theorem remove_items_pool_filter (p : OrderItem → Bool) (pool : List OrderItem) :
    remove_items_pool pool (pool.filter p) = some (pool.filter (fun x => !(p x))) := by
  induction pool with
  | nil => rfl
  | cons x rest ih =>
    cases hpx : p x with
    | true =>
      simp only [List.filter_cons, hpx, if_true, Bool.not_true, Bool.false_eq_true,
        if_false, cond_true, cond_false]
      simp only [remove_items_pool, removeFirst, if_pos rfl, Option.some_bind]
      exact ih
    | false =>
      simp only [List.filter_cons, hpx, Bool.not_false, Bool.false_eq_true, if_false,
        if_true, cond_true, cond_false]
      have hne : ∀ i ∈ rest.filter p, i ≠ x := by
        intro i hi hix
        have hpi : p i = true := (List.mem_filter.mp hi).2
        rw [hix, hpx] at hpi
        exact Bool.false_ne_true hpi
      rw [remove_items_pool_cons_of_ne x rest (rest.filter p) hne, ih]
      rfl

/-- C1: if the customer's pending items fit both limits, aggregate_order
returns an Order holding exactly those items, and the resulting pool holds
exactly the items of other customers. -/
theorem aggregate_order_within_limits (agg : OrderAggregator) (customer : String)
    (max_items_quantity max_volume : Int)
    (hq : ((agg.order_items.filter (fun i => decide (i.customer = customer))).map
        (fun i => i.quantity)).sum ≤ max_items_quantity)
    (hv : ((agg.order_items.filter (fun i => decide (i.customer = customer))).map
        OrderItem.total_volume).sum ≤ max_volume) :
    agg.aggregate_order customer max_items_quantity max_volume =
      some (some (Order.mk
          (agg.order_items.filter (fun i => decide (i.customer = customer))) none),
        OrderAggregator.mk
          (agg.order_items.filter (fun i => !(decide (i.customer = customer))))) := by
  unfold OrderAggregator.aggregate_order
  simp only []
  rw [if_pos ⟨hq, hv⟩]
  unfold OrderAggregator.remove_items
  rw [remove_items_pool_filter]
  rfl

/-- C1 witness at a concrete pool. -/
theorem aggregate_order_within_limits_witness :
    ((((OrderAggregator.mk [OrderItem.mk "X" "a" 2 3, OrderItem.mk "Y" "b" 1 1,
        OrderItem.mk "X" "c" 1 4]).order_items.filter
        (fun i => decide (i.customer = "X"))).map (fun i => i.quantity)).sum ≤ 5)
    ∧ ((((OrderAggregator.mk [OrderItem.mk "X" "a" 2 3, OrderItem.mk "Y" "b" 1 1,
        OrderItem.mk "X" "c" 1 4]).order_items.filter
        (fun i => decide (i.customer = "X"))).map OrderItem.total_volume).sum ≤ 10)
    ∧ (OrderAggregator.mk [OrderItem.mk "X" "a" 2 3, OrderItem.mk "Y" "b" 1 1,
        OrderItem.mk "X" "c" 1 4]).aggregate_order "X" 5 10 =
      some (some (Order.mk [OrderItem.mk "X" "a" 2 3, OrderItem.mk "X" "c" 1 4] none),
        OrderAggregator.mk [OrderItem.mk "Y" "b" 1 1]) := by
  refine ⟨by decide, by decide, ?_⟩
  have h := aggregate_order_within_limits
    (OrderAggregator.mk [OrderItem.mk "X" "a" 2 3, OrderItem.mk "Y" "b" 1 1,
      OrderItem.mk "X" "c" 1 4]) "X" 5 10 (by decide) (by decide)
  rw [h]
  decide

/-- C2: if the customer's pending items exceed either limit, aggregate_order
returns None and the aggregator state is unchanged. -/
theorem aggregate_order_exceeds_limits (agg : OrderAggregator) (customer : String)
    (max_items_quantity max_volume : Int)
    (h : max_items_quantity <
        ((agg.order_items.filter (fun i => decide (i.customer = customer))).map
          (fun i => i.quantity)).sum
      ∨ max_volume <
        ((agg.order_items.filter (fun i => decide (i.customer = customer))).map
          OrderItem.total_volume).sum) :
    agg.aggregate_order customer max_items_quantity max_volume = some (none, agg) := by
  unfold OrderAggregator.aggregate_order
  simp only []
  rw [if_neg]
  rcases h with h | h
  · exact fun hc => absurd hc.1 (not_le.mpr h)
  · exact fun hc => absurd hc.2 (not_le.mpr h)

/-- C2 witness at a concrete pool. -/
theorem aggregate_order_exceeds_limits_witness :
    (2 < (((OrderAggregator.mk [OrderItem.mk "X" "a" 2 3, OrderItem.mk "X" "c" 1 4]).order_items.filter
        (fun i => decide (i.customer = "X"))).map (fun i => i.quantity)).sum
      ∨ (100 : Int) < (((OrderAggregator.mk [OrderItem.mk "X" "a" 2 3,
        OrderItem.mk "X" "c" 1 4]).order_items.filter
        (fun i => decide (i.customer = "X"))).map OrderItem.total_volume).sum)
    ∧ (OrderAggregator.mk [OrderItem.mk "X" "a" 2 3, OrderItem.mk "X" "c" 1 4]).aggregate_order
        "X" 2 100 =
      some (none, OrderAggregator.mk [OrderItem.mk "X" "a" 2 3, OrderItem.mk "X" "c" 1 4]) := by
  refine ⟨Or.inl (by decide), ?_⟩
  exact aggregate_order_exceeds_limits
    (OrderAggregator.mk [OrderItem.mk "X" "a" 2 3, OrderItem.mk "X" "c" 1 4])
    "X" 2 100 (Or.inl (by decide))

/-- C7 counterexample: after aggregating customer X's two items, a second
aggregate_order call for X on the now-empty pool does NOT return an absent
result: it selects zero items, whose totals 0 satisfy the limits, and
returns an empty Order. -/
theorem second_aggregate_order_not_absent :
    (((OrderAggregator.mk []).add_item (OrderItem.mk "X" "a" 2 3)
        |>.add_item (OrderItem.mk "X" "b" 1 4)).aggregate_order "X" 5 10 =
      some (some (Order.mk [OrderItem.mk "X" "a" 2 3, OrderItem.mk "X" "b" 1 4] none),
        OrderAggregator.mk []))
    ∧ ((OrderAggregator.mk []).aggregate_order "X" 5 10).map (fun r => r.1) ≠ some none := by
  exact ⟨by decide, by decide⟩

/-- C7 amended: the first aggregate_order call returns an Order with both
items and empties the pool; the immediately following call returns an Order
with zero items (an empty Order), not an absent result. -/
theorem aggregate_order_scenario_second_call_empty_order :
    (((OrderAggregator.mk []).add_item (OrderItem.mk "X" "a" 2 3)
        |>.add_item (OrderItem.mk "X" "b" 1 4)).aggregate_order "X" 5 10 =
      some (some (Order.mk [OrderItem.mk "X" "a" 2 3, OrderItem.mk "X" "b" 1 4] none),
        OrderAggregator.mk []))
    ∧ (OrderAggregator.mk []).aggregate_order "X" 5 10 =
      some (some (Order.mk [] none), OrderAggregator.mk []) := by
  exact ⟨by decide, by decide⟩

theorem removeFirst_perm (pool p : List OrderItem) (x : OrderItem)
    (h : removeFirst pool x = some p) : List.Perm pool (x :: p) := by
  induction pool generalizing p with
  | nil => exact absurd h (by simp [removeFirst])
  | cons y ys ih =>
    unfold removeFirst at h
    by_cases hyx : y = x
    · rw [if_pos hyx] at h
      cases h
      rw [hyx]
    · rw [if_neg hyx] at h
      cases hrf : removeFirst ys x with
      | none => rw [hrf] at h; cases h
      | some q =>
        rw [hrf] at h
        cases h
        exact (List.Perm.cons y (ih q hrf)).trans (List.Perm.swap x y q)

theorem remove_items_pool_perm (pool items p : List OrderItem)
    (h : remove_items_pool pool items = some p) : List.Perm pool (p ++ items) := by
  induction items generalizing pool with
  | nil =>
    cases h
    simp
  | cons i rest ih =>
    unfold remove_items_pool at h
    cases hrf : removeFirst pool i with
    | none => rw [hrf] at h; cases h
    | some p1 =>
      rw [hrf] at h
      simp only [Option.some_bind] at h
      have h1 : List.Perm pool (i :: p1) := removeFirst_perm pool p1 i hrf
      have h2 : List.Perm p1 (p ++ rest) := ih p1 h
      exact (h1.trans (h2.cons i)).trans List.perm_middle.symm

theorem foldl_add_item (items : List OrderItem) (agg : OrderAggregator) :
    (items.foldl OrderAggregator.add_item agg).order_items =
      agg.order_items ++ items := by
  induction items generalizing agg with
  | nil => simp
  | cons i rest ih =>
    simp only [List.foldl_cons, ih, OrderAggregator.add_item]
    simp

theorem removeFirst_of_mem (pool : List OrderItem) (x : OrderItem)
    (h : x ∈ pool) : ∃ p, removeFirst pool x = some p := by
  induction pool with
  | nil => cases h
  | cons y ys ih =>
    unfold removeFirst
    by_cases hyx : y = x
    · exact ⟨ys, by rw [if_pos hyx]⟩
    · have hx : x ∈ ys := by
        rcases List.mem_cons.mp h with h | h
        · exact absurd h.symm hyx
        · exact h
      obtain ⟨p, hp⟩ := ih hx
      exact ⟨y :: p, by rw [if_neg hyx, hp]; rfl⟩

theorem remove_items_pool_of_subperm (items pool : List OrderItem)
    (h : items.Subperm pool) : ∃ p, remove_items_pool pool items = some p := by
  induction items generalizing pool with
  | nil => exact ⟨pool, rfl⟩
  | cons i rest ih =>
    have hi : i ∈ pool := h.subset (List.mem_cons_self i rest)
    obtain ⟨p, hp⟩ := removeFirst_of_mem pool i hi
    have hperm : List.Perm pool (i :: p) := removeFirst_perm pool p i hp
    have h2 : rest.Subperm p :=
      (List.subperm_cons i).mp (h.trans hperm.subperm)
    obtain ⟨q, hq⟩ := ih p h2
    refine ⟨q, ?_⟩
    unfold remove_items_pool
    rw [hp]
    simpa using hq

/-- C8: for any list of items each present in the pool (with multiplicity,
i.e. a subpermutation of the pool), remove_items succeeds, and re-adding
those same items with add_item restores the pool to its prior content as a
multiset (the pool is a semantic set; insertion order is not meaningful). -/
theorem remove_items_add_item_round_trip (agg : OrderAggregator)
    (items : List OrderItem) (h : items.Subperm agg.order_items) :
    ∃ agg2, agg.remove_items items = some agg2
      ∧ List.Perm (items.foldl OrderAggregator.add_item agg2).order_items
          agg.order_items := by
  obtain ⟨p, hp⟩ := remove_items_pool_of_subperm items agg.order_items h
  refine ⟨OrderAggregator.mk p, ?_, ?_⟩
  · unfold OrderAggregator.remove_items
    rw [hp]
    rfl
  · rw [foldl_add_item]
    exact (remove_items_pool_perm agg.order_items items p hp).symm

/-- C8 witness at a concrete pool. -/
theorem remove_items_add_item_round_trip_witness :
    ([OrderItem.mk "X" "a" 2 3, OrderItem.mk "Y" "b" 1 1].Subperm
      (OrderAggregator.mk [OrderItem.mk "X" "a" 2 3, OrderItem.mk "Y" "b" 1 1,
        OrderItem.mk "X" "c" 1 4]).order_items)
    ∧ ∃ agg2, (OrderAggregator.mk [OrderItem.mk "X" "a" 2 3, OrderItem.mk "Y" "b" 1 1,
        OrderItem.mk "X" "c" 1 4]).remove_items
        [OrderItem.mk "X" "a" 2 3, OrderItem.mk "Y" "b" 1 1] = some agg2
      ∧ List.Perm ([OrderItem.mk "X" "a" 2 3, OrderItem.mk "Y" "b" 1 1].foldl
          OrderAggregator.add_item agg2).order_items
        (OrderAggregator.mk [OrderItem.mk "X" "a" 2 3, OrderItem.mk "Y" "b" 1 1,
          OrderItem.mk "X" "c" 1 4]).order_items := by
  have hsub : [OrderItem.mk "X" "a" 2 3, OrderItem.mk "Y" "b" 1 1].Subperm
      (OrderAggregator.mk [OrderItem.mk "X" "a" 2 3, OrderItem.mk "Y" "b" 1 1,
        OrderItem.mk "X" "c" 1 4]).order_items := by
    refine List.Sublist.subperm ?_
    refine List.Sublist.cons₂ _ ?_
    refine List.Sublist.cons₂ _ ?_
    exact List.nil_sublist _
  exact ⟨hsub, remove_items_add_item_round_trip
    (OrderAggregator.mk [OrderItem.mk "X" "a" 2 3, OrderItem.mk "Y" "b" 1 1,
      OrderItem.mk "X" "c" 1 4])
    [OrderItem.mk "X" "a" 2 3, OrderItem.mk "Y" "b" 1 1] hsub⟩

/-- State of class ContainerAggregator: the configured container volume and
the not_used_orders list initialised to [] by the constructor. -/
structure ContainerAggregator where
  container_volume : Int
  not_used_orders : List Order := []
deriving DecidableEq

/-- The inner generator of prepare_containers: scan container_list for the
first container c with order.total_volume ≤ c.volume_left and
order.destination = destination; when found, return the list with the order
appended to that container's orders. -/
def findPlace (order : Order) (destination : Option String) (cs : List Container) :
    Option (List Container) :=
  match cs with
  | [] => none
  | c :: rest =>
    if order.total_volume ≤ c.volume_left ∧ order.destination = destination then
      some ({ c with orders := c.orders ++ [order] } :: rest)
    else
      (findPlace order destination rest).map (fun r => c :: r)

/-- The outer loop of prepare_containers over containers.items(): try each
destination bucket in insertion order, stopping at the first successful
placement. -/
def tryPlace (order : Order) (entries : List (Option String × List Container)) :
    Option (List (Option String × List Container)) :=
  match entries with
  | [] => none
  | (destination, container_list) :: rest =>
    match findPlace order destination container_list with
    | some newList => some ((destination, newList) :: rest)
    | none => (tryPlace order rest).map (fun r => (destination, container_list) :: r)

/-- containers[order.destination].append(container) on the insertion-ordered
defaultdict: extend the existing bucket, or create a new one at the end. -/
def addToBucket (d : Option String) (cont : Container)
    (entries : List (Option String × List Container)) :
    List (Option String × List Container) :=
  match entries with
  | [] => [(d, [cont])]
  | (d0, cs) :: rest =>
    if d0 = d then (d0, cs ++ [cont]) :: rest else (d0, cs) :: addToBucket d cont rest

/-- One iteration of the for-loop of prepare_containers: place the order in
the first fitting container, or create a fresh container holding it and
register it under the order's destination. -/
def placeOrder (container_volume : Int)
    (entries : List (Option String × List Container)) (order : Order) :
    List (Option String × List Container) :=
  match tryPlace order entries with
  | some e => e
  | none =>
    addToBucket order.destination (Container.mk container_volume [order]) entries

/-- ContainerAggregator.prepare_containers: fold the placement loop over the
given orders, starting from an empty dict; the instance state (in particular
not_used_orders) is returned unchanged, as the method never assigns to it. -/
def ContainerAggregator.prepare_containers (self : ContainerAggregator)
    (orders : List Order) :
    List (Option String × List Container) × ContainerAggregator :=
  (orders.foldl (placeOrder self.container_volume) [], self)

/-- Number of orders held by a list of containers. -/
def containerOrderCount (cs : List Container) : Nat :=
  (cs.map (fun c => c.orders.length)).sum

/-- Number of orders held across all buckets of the destination dict. -/
def entriesOrderCount (entries : List (Option String × List Container)) : Nat :=
  (entries.map (fun p => containerOrderCount p.2)).sum

theorem findPlace_count (o : Order) (d : Option String) (cs cs2 : List Container)
    (h : findPlace o d cs = some cs2) :
    containerOrderCount cs2 = containerOrderCount cs + 1 := by
  induction cs generalizing cs2 with
  | nil => exact absurd h (by simp [findPlace])
  | cons c rest ih =>
    unfold findPlace at h
    by_cases hc : o.total_volume ≤ c.volume_left ∧ o.destination = d
    · rw [if_pos hc] at h
      cases h
      simp [containerOrderCount]
      omega
    · rw [if_neg hc] at h
      cases hrec : findPlace o d rest with
      | none => rw [hrec] at h; cases h
      | some r =>
        rw [hrec] at h
        cases h
        have := ih r hrec
        simp [containerOrderCount] at this ⊢
        omega

theorem tryPlace_count (o : Order) (e e2 : List (Option String × List Container))
    (h : tryPlace o e = some e2) :
    entriesOrderCount e2 = entriesOrderCount e + 1 := by
  induction e generalizing e2 with
  | nil => exact absurd h (by simp [tryPlace])
  | cons p rest ih =>
    obtain ⟨d, cs⟩ := p
    unfold tryPlace at h
    cases hfp : findPlace o d cs with
    | some newList =>
      rw [hfp] at h
      cases h
      have := findPlace_count o d cs newList hfp
      simp [entriesOrderCount] at this ⊢
      omega
    | none =>
      rw [hfp] at h
      cases hrec : tryPlace o rest with
      | none => rw [hrec] at h; cases h
      | some r =>
        rw [hrec] at h
        cases h
        have := ih r hrec
        simp [entriesOrderCount] at this ⊢
        omega

theorem addToBucket_count (d : Option String) (cont : Container)
    (e : List (Option String × List Container)) :
    entriesOrderCount (addToBucket d cont e) =
      entriesOrderCount e + cont.orders.length := by
  induction e with
  | nil => simp [addToBucket, entriesOrderCount, containerOrderCount]
  | cons p rest ih =>
    obtain ⟨d0, cs⟩ := p
    unfold addToBucket
    by_cases hd : d0 = d
    · rw [if_pos hd]
      simp [entriesOrderCount, containerOrderCount]
      omega
    · rw [if_neg hd]
      simp [entriesOrderCount] at ih ⊢
      omega

theorem placeOrder_count (cv : Int) (e : List (Option String × List Container))
    (o : Order) :
    entriesOrderCount (placeOrder cv e o) = entriesOrderCount e + 1 := by
  unfold placeOrder
  cases htp : tryPlace o e with
  | some r => exact tryPlace_count o e r htp
  | none => rw [addToBucket_count]; rfl

theorem foldl_placeOrder_count (cv : Int) (orders : List Order)
    (e : List (Option String × List Container)) :
    entriesOrderCount (orders.foldl (placeOrder cv) e) =
      entriesOrderCount e + orders.length := by
  induction orders generalizing e with
  | nil => simp
  | cons o rest ih =>
    simp only [List.foldl_cons, List.length_cons, ih, placeOrder_count]
    omega

/-- C3: prepare_containers never drops an order: the orders held across all
returned containers, plus those in not_used_orders, number exactly the input
orders. -/
theorem prepare_containers_conserves_orders (agg : ContainerAggregator)
    (orders : List Order) (h : agg.not_used_orders = []) :
    entriesOrderCount (agg.prepare_containers orders).1
      + (agg.prepare_containers orders).2.not_used_orders.length = orders.length := by
  unfold ContainerAggregator.prepare_containers
  rw [foldl_placeOrder_count]
  simp [h, entriesOrderCount]

/-- C3 witness at a concrete input. -/
theorem prepare_containers_conserves_orders_witness :
    (ContainerAggregator.mk 10 []).not_used_orders = []
    ∧ entriesOrderCount ((ContainerAggregator.mk 10 []).prepare_containers
        [Order.mk [OrderItem.mk "X" "a" 1 5] (some "A"),
         Order.mk [OrderItem.mk "Y" "b" 1 7] (some "A")]).1
      + ((ContainerAggregator.mk 10 []).prepare_containers
        [Order.mk [OrderItem.mk "X" "a" 1 5] (some "A"),
         Order.mk [OrderItem.mk "Y" "b" 1 7] (some "A")]).2.not_used_orders.length = 2 := by
  refine ⟨rfl, ?_⟩
  exact prepare_containers_conserves_orders (ContainerAggregator.mk 10 [])
    [Order.mk [OrderItem.mk "X" "a" 1 5] (some "A"),
     Order.mk [OrderItem.mk "Y" "b" 1 7] (some "A")] rfl

/-- C9: prepare_containers never touches not_used_orders: the field after the
call is exactly its value before the call. -/
theorem prepare_containers_not_used_orders_unchanged (agg : ContainerAggregator)
    (orders : List Order) :
    (agg.prepare_containers orders).2.not_used_orders = agg.not_used_orders := rfl

theorem volume_left_append (c : Container) (o : Order) :
    (Container.mk c.volume (c.orders ++ [o])).volume_left =
      c.volume_left - o.total_volume := by
  simp [Container.volume_left]
  omega

theorem findPlace_forall {A : Option String → Container → Prop} (o : Order)
    (d : Option String) (cs cs2 : List Container) (h : findPlace o d cs = some cs2)
    (hcs : ∀ c ∈ cs, A d c)
    (happ : ∀ c, A d c → o.total_volume ≤ c.volume_left → o.destination = d →
      A d (Container.mk c.volume (c.orders ++ [o]))) :
    ∀ c ∈ cs2, A d c := by
  induction cs generalizing cs2 with
  | nil => exact absurd h (by simp [findPlace])
  | cons c rest ih =>
    unfold findPlace at h
    by_cases hc : o.total_volume ≤ c.volume_left ∧ o.destination = d
    · rw [if_pos hc] at h
      cases h
      intro c2 hc2
      rcases List.mem_cons.mp hc2 with hc2 | hc2
      · rw [hc2]
        exact happ c (hcs c (List.mem_cons_self c rest)) hc.1 hc.2
      · exact hcs c2 (List.mem_cons_of_mem c hc2)
    · rw [if_neg hc] at h
      cases hrec : findPlace o d rest with
      | none => rw [hrec] at h; cases h
      | some r =>
        rw [hrec] at h
        cases h
        intro c2 hc2
        rcases List.mem_cons.mp hc2 with hc2 | hc2
        · rw [hc2]
          exact hcs c (List.mem_cons_self c rest)
        · exact ih r hrec (fun c3 hc3 => hcs c3 (List.mem_cons_of_mem c hc3)) c2 hc2

theorem tryPlace_forall {A : Option String → Container → Prop} (o : Order)
    (e e2 : List (Option String × List Container)) (h : tryPlace o e = some e2)
    (he : ∀ p ∈ e, ∀ c ∈ p.2, A p.1 c)
    (happ : ∀ d c, A d c → o.total_volume ≤ c.volume_left → o.destination = d →
      A d (Container.mk c.volume (c.orders ++ [o]))) :
    ∀ p ∈ e2, ∀ c ∈ p.2, A p.1 c := by
  induction e generalizing e2 with
  | nil => exact absurd h (by simp [tryPlace])
  | cons q rest ih =>
    obtain ⟨d, cs⟩ := q
    unfold tryPlace at h
    cases hfp : findPlace o d cs with
    | some newList =>
      rw [hfp] at h
      cases h
      intro p hp
      rcases List.mem_cons.mp hp with hp | hp
      · rw [hp]
        exact findPlace_forall o d cs newList hfp
          (fun c hc => he (d, cs) (List.mem_cons_self _ rest) c hc) (happ d)
      · exact he p (List.mem_cons_of_mem _ hp)
    | none =>
      rw [hfp] at h
      cases hrec : tryPlace o rest with
      | none => rw [hrec] at h; cases h
      | some r =>
        rw [hrec] at h
        cases h
        intro p hp
        rcases List.mem_cons.mp hp with hp | hp
        · rw [hp]
          exact he (d, cs) (List.mem_cons_self _ rest)
        · exact ih r hrec (fun q hq => he q (List.mem_cons_of_mem _ hq)) p hp

theorem addToBucket_forall {A : Option String → Container → Prop}
    (d : Option String) (cont : Container)
    (e : List (Option String × List Container))
    (he : ∀ p ∈ e, ∀ c ∈ p.2, A p.1 c) (hcont : A d cont) :
    ∀ p ∈ addToBucket d cont e, ∀ c ∈ p.2, A p.1 c := by
  induction e with
  | nil =>
    intro p hp
    simp only [addToBucket, List.mem_singleton] at hp
    rw [hp]
    intro c hc
    rw [List.mem_singleton.mp hc]
    exact hcont
  | cons q rest ih =>
    obtain ⟨d0, cs⟩ := q
    unfold addToBucket
    by_cases hd : d0 = d
    · rw [if_pos hd]
      intro p hp
      rcases List.mem_cons.mp hp with hp | hp
      · rw [hp]
        intro c hc
        rcases List.mem_append.mp hc with hc | hc
        · exact he (d0, cs) (List.mem_cons_self _ rest) c hc
        · rw [List.mem_singleton.mp hc, hd]
          exact hcont
      · exact he p (List.mem_cons_of_mem _ hp)
    · rw [if_neg hd]
      intro p hp
      rcases List.mem_cons.mp hp with hp | hp
      · rw [hp]
        exact he (d0, cs) (List.mem_cons_self _ rest)
      · exact ih (fun q hq => he q (List.mem_cons_of_mem _ hq)) p hp

theorem placeOrder_forall {A : Option String → Container → Prop} (cv : Int)
    (e : List (Option String × List Container)) (o : Order)
    (he : ∀ p ∈ e, ∀ c ∈ p.2, A p.1 c)
    (happ : ∀ d c, A d c → o.total_volume ≤ c.volume_left → o.destination = d →
      A d (Container.mk c.volume (c.orders ++ [o])))
    (hfresh : A o.destination (Container.mk cv [o])) :
    ∀ p ∈ placeOrder cv e o, ∀ c ∈ p.2, A p.1 c := by
  unfold placeOrder
  cases htp : tryPlace o e with
  | some r => exact tryPlace_forall o e r htp he happ
  | none => exact addToBucket_forall o.destination (Container.mk cv [o]) e he hfresh

theorem foldl_placeOrder_forall {A : Option String → Container → Prop} (cv : Int)
    (orders : List Order) (e : List (Option String × List Container))
    (he : ∀ p ∈ e, ∀ c ∈ p.2, A p.1 c)
    (happ : ∀ o ∈ orders, ∀ d c, A d c → o.total_volume ≤ c.volume_left →
      o.destination = d → A d (Container.mk c.volume (c.orders ++ [o])))
    (hfresh : ∀ o ∈ orders, A o.destination (Container.mk cv [o])) :
    ∀ p ∈ orders.foldl (placeOrder cv) e, ∀ c ∈ p.2, A p.1 c := by
  induction orders generalizing e with
  | nil => exact he
  | cons o rest ih =>
    simp only [List.foldl_cons]
    exact ih (placeOrder cv e o)
      (placeOrder_forall cv e o he
        (happ o (List.mem_cons_self o rest)) (hfresh o (List.mem_cons_self o rest)))
      (fun o2 ho2 => happ o2 (List.mem_cons_of_mem o ho2))
      (fun o2 ho2 => hfresh o2 (List.mem_cons_of_mem o ho2))

/-- C10: in the returned mapping every order in a container registered under
destination d has destination d. -/
theorem prepare_containers_destination_consistent (agg : ContainerAggregator)
    (orders : List Order) (d : Option String) (cs : List Container)
    (hmem : (d, cs) ∈ (agg.prepare_containers orders).1)
    (c : Container) (hc : c ∈ cs) (o : Order) (ho : o ∈ c.orders) :
    o.destination = d := by
  have hall : ∀ p ∈ (agg.prepare_containers orders).1, ∀ c2 ∈ p.2,
      ∀ o2 ∈ c2.orders, o2.destination = p.1 := by
    refine foldl_placeOrder_forall
      (A := fun dd cc => ∀ o2 ∈ cc.orders, o2.destination = dd)
      agg.container_volume orders [] (by simp) ?_ ?_
    · intro o2 _ dd cc hcc _ hdest o3 ho3
      rcases List.mem_append.mp ho3 with ho3 | ho3
      · exact hcc o3 ho3
      · rw [List.mem_singleton.mp ho3]
        exact hdest
    · intro o2 _ o3 ho3
      rw [List.mem_singleton.mp ho3]
  exact hall (d, cs) hmem c hc o ho

/-- C10 witness at a concrete input. -/
theorem prepare_containers_destination_consistent_witness :
    ((some "A", [Container.mk 10 [Order.mk [OrderItem.mk "X" "a" 1 5] (some "A")]]) ∈
      ((ContainerAggregator.mk 10 []).prepare_containers
        [Order.mk [OrderItem.mk "X" "a" 1 5] (some "A")]).1)
    ∧ (Order.mk [OrderItem.mk "X" "a" 1 5] (some "A")).destination = some "A" := by
  refine ⟨by decide, ?_⟩
  exact prepare_containers_destination_consistent (ContainerAggregator.mk 10 [])
    [Order.mk [OrderItem.mk "X" "a" 1 5] (some "A")] (some "A")
    [Container.mk 10 [Order.mk [OrderItem.mk "X" "a" 1 5] (some "A")]]
    (by decide)
    (Container.mk 10 [Order.mk [OrderItem.mk "X" "a" 1 5] (some "A")])
    (by decide)
    (Order.mk [OrderItem.mk "X" "a" 1 5] (some "A"))
    (by decide)

/-- C5: volume_left is the capacity minus the summed volume of held orders,
and after packing orders that each fit an empty container, every returned
container has nonnegative volume_left. -/
theorem prepare_containers_volume_left_nonneg (agg : ContainerAggregator)
    (orders : List Order)
    (hb : ∀ o ∈ orders, o.total_volume ≤ agg.container_volume) :
    (∀ c : Container, c.volume_left = c.volume - (c.orders.map Order.total_volume).sum)
    ∧ ∀ p ∈ (agg.prepare_containers orders).1, ∀ c ∈ p.2, 0 ≤ c.volume_left := by
  refine ⟨fun c => rfl, ?_⟩
  refine foldl_placeOrder_forall (A := fun _ cc => 0 ≤ cc.volume_left)
    agg.container_volume orders [] (by simp) ?_ ?_
  · intro o _ d c hc hfit _
    rw [volume_left_append]
    omega
  · intro o ho
    have hb2 := hb o ho
    simp only [Container.volume_left, List.map_cons, List.map_nil, List.sum_cons,
      List.sum_nil]
    omega

/-- C5 witness at a concrete input. -/
theorem prepare_containers_volume_left_nonneg_witness :
    (∀ o ∈ [Order.mk [OrderItem.mk "X" "a" 1 5] (some "A")],
      o.total_volume ≤ (ContainerAggregator.mk 10 []).container_volume)
    ∧ ((∀ c : Container, c.volume_left = c.volume - (c.orders.map Order.total_volume).sum)
      ∧ ∀ p ∈ ((ContainerAggregator.mk 10 []).prepare_containers
          [Order.mk [OrderItem.mk "X" "a" 1 5] (some "A")]).1,
        ∀ c ∈ p.2, 0 ≤ c.volume_left) := by
  refine ⟨by decide, ?_⟩
  exact prepare_containers_volume_left_nonneg (ContainerAggregator.mk 10 [])
    [Order.mk [OrderItem.mk "X" "a" 1 5] (some "A")] (by decide)

theorem findPlace_none_of (o : Order) (d : Option String) (cs : List Container)
    (h : ∀ c ∈ cs, ¬ (o.total_volume ≤ c.volume_left ∧ o.destination = d)) :
    findPlace o d cs = none := by
  induction cs with
  | nil => rfl
  | cons c rest ih =>
    unfold findPlace
    rw [if_neg (h c (List.mem_cons_self c rest)),
      ih (fun c2 hc2 => h c2 (List.mem_cons_of_mem c hc2))]
    rfl

theorem tryPlace_none_of (o : Order) (e : List (Option String × List Container))
    (h : ∀ p ∈ e, ∀ c ∈ p.2, ¬ (o.total_volume ≤ c.volume_left ∧ o.destination = p.1)) :
    tryPlace o e = none := by
  induction e with
  | nil => rfl
  | cons q rest ih =>
    obtain ⟨d, cs⟩ := q
    unfold tryPlace
    rw [findPlace_none_of o d cs (h (d, cs) (List.mem_cons_self _ rest)),
      ih (fun q2 hq2 => h q2 (List.mem_cons_of_mem _ hq2))]
    rfl

theorem findPlace_first (o : Order) (d : Option String)
    (csPre csPost : List Container) (c : Container)
    (hcsPre : ∀ c0 ∈ csPre, ¬ (o.total_volume ≤ c0.volume_left ∧ o.destination = d))
    (hfit : o.total_volume ≤ c.volume_left) (hdest : o.destination = d) :
    findPlace o d (csPre ++ c :: csPost) =
      some (csPre ++ Container.mk c.volume (c.orders ++ [o]) :: csPost) := by
  induction csPre with
  | nil =>
    simp only [List.nil_append]
    unfold findPlace
    rw [if_pos ⟨hfit, hdest⟩]
  | cons c0 rest ih =>
    simp only [List.cons_append]
    unfold findPlace
    rw [if_neg (hcsPre c0 (List.mem_cons_self c0 rest)),
      ih (fun c1 hc1 => hcsPre c1 (List.mem_cons_of_mem c0 hc1))]
    rfl

/-- C6: prepare_containers places each order first-fit: given that no
container in the earlier buckets qualifies, and none before c in its bucket
qualifies, while c itself fits and its bucket is the order's destination,
the placement step appends the order to exactly c and leaves everything
else unchanged. -/
theorem placeOrder_first_fit (cv : Int) (o : Order)
    (pre post : List (Option String × List Container)) (d : Option String)
    (csPre csPost : List Container) (c : Container)
    (hpre : ∀ p ∈ pre, ∀ c0 ∈ p.2,
      ¬ (o.total_volume ≤ c0.volume_left ∧ o.destination = p.1))
    (hcsPre : ∀ c0 ∈ csPre, ¬ (o.total_volume ≤ c0.volume_left ∧ o.destination = d))
    (hfit : o.total_volume ≤ c.volume_left) (hdest : o.destination = d) :
    placeOrder cv (pre ++ (d, csPre ++ c :: csPost) :: post) o =
      pre ++ (d, csPre ++ Container.mk c.volume (c.orders ++ [o]) :: csPost) :: post := by
  have htp : tryPlace o (pre ++ (d, csPre ++ c :: csPost) :: post) =
      some (pre ++ (d, csPre ++ Container.mk c.volume (c.orders ++ [o]) :: csPost) :: post) := by
    induction pre with
    | nil =>
      simp only [List.nil_append]
      unfold tryPlace
      rw [findPlace_first o d csPre csPost c hcsPre hfit hdest]
    | cons q rest ih =>
      obtain ⟨d0, cs0⟩ := q
      simp only [List.cons_append]
      unfold tryPlace
      rw [findPlace_none_of o d0 cs0 (hpre (d0, cs0) (List.mem_cons_self _ rest)),
        ih (fun q2 hq2 => hpre q2 (List.mem_cons_of_mem _ hq2))]
      rfl
  unfold placeOrder
  rw [htp]

/-- C6 witness: containers A (volume_left 5) and B (volume_left 10) for one
destination in creation order; an order of volume 5 lands in A, not B. -/
theorem placeOrder_first_fit_witness :
    (∀ p ∈ ([] : List (Option String × List Container)), ∀ c0 ∈ p.2,
      ¬ ((Order.mk [OrderItem.mk "X" "a" 1 5] (some "D")).total_volume ≤ c0.volume_left
        ∧ (Order.mk [OrderItem.mk "X" "a" 1 5] (some "D")).destination = p.1))
    ∧ (Order.mk [OrderItem.mk "X" "a" 1 5] (some "D")).total_volume ≤
        (Container.mk 5 []).volume_left
    ∧ (Order.mk [OrderItem.mk "X" "a" 1 5] (some "D")).destination = some "D"
    ∧ placeOrder 10 [(some "D", [Container.mk 5 [], Container.mk 10 []])]
        (Order.mk [OrderItem.mk "X" "a" 1 5] (some "D")) =
      [(some "D", [Container.mk 5 [Order.mk [OrderItem.mk "X" "a" 1 5] (some "D")],
        Container.mk 10 []])] := by
  refine ⟨by simp, by decide, by decide, ?_⟩
  have h := placeOrder_first_fit 10 (Order.mk [OrderItem.mk "X" "a" 1 5] (some "D"))
    [] [] (some "D") [] [Container.mk 10 []] (Container.mk 5 [])
    (by simp) (by simp) (by decide) (by decide)
  simpa using h

theorem findPlace_preserves_mem (o : Order) (d : Option String)
    (cs cs2 : List Container) (c0 : Container) (h : findPlace o d cs = some cs2)
    (hc0 : c0 ∈ cs) (hnofit : ¬ o.total_volume ≤ c0.volume_left) : c0 ∈ cs2 := by
  induction cs generalizing cs2 with
  | nil => exact absurd h (by simp [findPlace])
  | cons c rest ih =>
    unfold findPlace at h
    by_cases hc : o.total_volume ≤ c.volume_left ∧ o.destination = d
    · rw [if_pos hc] at h
      cases h
      rcases List.mem_cons.mp hc0 with hc0 | hc0
      · rw [hc0] at hnofit
        exact absurd hc.1 hnofit
      · exact List.mem_cons_of_mem _ hc0
    · rw [if_neg hc] at h
      cases hrec : findPlace o d rest with
      | none => rw [hrec] at h; cases h
      | some r =>
        rw [hrec] at h
        cases h
        rcases List.mem_cons.mp hc0 with hc0 | hc0
        · rw [hc0]
          exact List.mem_cons_self c r
        · exact List.mem_cons_of_mem c (ih r hrec hc0)

theorem tryPlace_preserves_mem (o : Order)
    (e e2 : List (Option String × List Container)) (d0 : Option String)
    (cs : List Container) (c0 : Container) (h : tryPlace o e = some e2)
    (hm : (d0, cs) ∈ e) (hc0 : c0 ∈ cs)
    (hnofit : ¬ o.total_volume ≤ c0.volume_left) :
    ∃ cs2, (d0, cs2) ∈ e2 ∧ c0 ∈ cs2 := by
  induction e generalizing e2 with
  | nil => exact absurd h (by simp [tryPlace])
  | cons q rest ih =>
    obtain ⟨d, csb⟩ := q
    unfold tryPlace at h
    cases hfp : findPlace o d csb with
    | some newList =>
      rw [hfp] at h
      cases h
      rcases List.mem_cons.mp hm with hm | hm
      · obtain ⟨hd, hcs⟩ := Prod.mk.injEq .. ▸ hm
        refine ⟨newList, ?_, ?_⟩
        · rw [hd]
          exact List.mem_cons_self _ rest
        · exact findPlace_preserves_mem o d csb newList c0 hfp (hcs ▸ hc0) hnofit
      · exact ⟨cs, List.mem_cons_of_mem _ hm, hc0⟩
    | none =>
      rw [hfp] at h
      cases hrec : tryPlace o rest with
      | none => rw [hrec] at h; cases h
      | some r =>
        rw [hrec] at h
        cases h
        rcases List.mem_cons.mp hm with hm | hm
        · exact ⟨cs, hm ▸ List.mem_cons_self _ r, hc0⟩
        · obtain ⟨cs2, hcs2, hc02⟩ := ih r hrec hm
          exact ⟨cs2, List.mem_cons_of_mem _ hcs2, hc02⟩

theorem addToBucket_preserves_mem (d : Option String) (cont : Container)
    (e : List (Option String × List Container)) (d0 : Option String)
    (cs : List Container) (c0 : Container) (hm : (d0, cs) ∈ e) (hc0 : c0 ∈ cs) :
    ∃ cs2, (d0, cs2) ∈ addToBucket d cont e ∧ c0 ∈ cs2 := by
  induction e with
  | nil => cases hm
  | cons q rest ih =>
    obtain ⟨d1, cs1⟩ := q
    unfold addToBucket
    by_cases hd : d1 = d
    · rw [if_pos hd]
      rcases List.mem_cons.mp hm with hm | hm
      · obtain ⟨h1, h2⟩ := Prod.mk.injEq .. ▸ hm
        refine ⟨cs1 ++ [cont], ?_, ?_⟩
        · rw [h1]
          exact List.mem_cons_self _ rest
        · exact List.mem_append_left _ (h2 ▸ hc0)
      · exact ⟨cs, List.mem_cons_of_mem _ hm, hc0⟩
    · rw [if_neg hd]
      rcases List.mem_cons.mp hm with hm | hm
      · exact ⟨cs, hm ▸ List.mem_cons_self _ _, hc0⟩
      · obtain ⟨cs2, hcs2, hc02⟩ := ih hm
        exact ⟨cs2, List.mem_cons_of_mem _ hcs2, hc02⟩

theorem placeOrder_preserves_mem (cv : Int)
    (e : List (Option String × List Container)) (o : Order) (d0 : Option String)
    (c0 : Container) (hmem : ∃ cs, (d0, cs) ∈ e ∧ c0 ∈ cs)
    (hnofit : ¬ o.total_volume ≤ c0.volume_left) :
    ∃ cs, (d0, cs) ∈ placeOrder cv e o ∧ c0 ∈ cs := by
  obtain ⟨cs, hm, hc0⟩ := hmem
  unfold placeOrder
  cases htp : tryPlace o e with
  | some r => exact tryPlace_preserves_mem o e r d0 cs c0 htp hm hc0 hnofit
  | none => exact addToBucket_preserves_mem o.destination _ e d0 cs c0 hm hc0

theorem addToBucket_mem_self (d : Option String) (cont : Container)
    (e : List (Option String × List Container)) :
    ∃ cs, (d, cs) ∈ addToBucket d cont e ∧ cont ∈ cs := by
  induction e with
  | nil =>
    exact ⟨[cont], List.mem_singleton.mpr rfl, List.mem_singleton.mpr rfl⟩
  | cons q rest ih =>
    obtain ⟨d1, cs1⟩ := q
    unfold addToBucket
    by_cases hd : d1 = d
    · rw [if_pos hd]
      refine ⟨cs1 ++ [cont], ?_, List.mem_append_right _ (List.mem_singleton.mpr rfl)⟩
      rw [hd]
      exact List.mem_cons_self _ rest
    · rw [if_neg hd]
      obtain ⟨cs2, hcs2, hc2⟩ := ih
      exact ⟨cs2, List.mem_cons_of_mem _ hcs2, hc2⟩

theorem foldl_placeOrder_keeps_container (cv : Int) (d0 : Option String)
    (c0 : Container) (hneg : c0.volume_left < 0) :
    ∀ (post : List Order) (e : List (Option String × List Container)),
      (∀ o ∈ post, 0 ≤ o.total_volume) →
      (∃ cs, (d0, cs) ∈ e ∧ c0 ∈ cs) →
      ∃ cs, (d0, cs) ∈ post.foldl (placeOrder cv) e ∧ c0 ∈ cs := by
  intro post
  induction post with
  | nil => exact fun e _ hmem => hmem
  | cons o rest ih =>
    intro e hnn hmem
    simp only [List.foldl_cons]
    refine ih (placeOrder cv e o) (fun o2 ho2 => hnn o2 (List.mem_cons_of_mem o ho2)) ?_
    refine placeOrder_preserves_mem cv e o d0 c0 hmem ?_
    have h0 := hnn o (List.mem_cons_self o rest)
    omega

/-- C4: an order whose total_volume strictly exceeds the configured
container_volume (all input orders having nonnegative volume, so no existing
container can ever qualify) is still placed: a fresh container with the
configured volume holding exactly that order is registered under the order's
destination, and its volume_left is negative. -/
theorem prepare_containers_oversized_order (agg : ContainerAggregator)
    (orders : List Order) (o : Order)
    (hnn : ∀ ord ∈ orders, 0 ≤ ord.total_volume)
    (ho : o ∈ orders) (hover : agg.container_volume < o.total_volume) :
    ∃ cs, (o.destination, cs) ∈ (agg.prepare_containers orders).1
      ∧ ∃ c ∈ cs, c.volume = agg.container_volume ∧ c.orders = [o]
        ∧ c.volume_left < 0 := by
  obtain ⟨pre, post, hsplit⟩ := List.append_of_mem ho
  have hprenn : ∀ ord ∈ pre, 0 ≤ ord.total_volume := by
    intro ord hord
    exact hnn ord (hsplit ▸ List.mem_append_left _ hord)
  have hpostnn : ∀ ord ∈ post, 0 ≤ ord.total_volume := by
    intro ord hord
    exact hnn ord (hsplit ▸ List.mem_append_right _ (List.mem_cons_of_mem o hord))
  have honn : 0 ≤ o.total_volume := hnn o ho
  unfold ContainerAggregator.prepare_containers
  rw [hsplit, List.foldl_append, List.foldl_cons]
  have hINV : ∀ p ∈ pre.foldl (placeOrder agg.container_volume) [], ∀ c ∈ p.2,
      c.volume = agg.container_volume ∧ ∀ ord ∈ c.orders, 0 ≤ ord.total_volume := by
    refine foldl_placeOrder_forall
      (A := fun _ cc => cc.volume = agg.container_volume ∧
        ∀ ord ∈ cc.orders, 0 ≤ ord.total_volume)
      agg.container_volume pre [] (by simp) ?_ ?_
    · intro o2 ho2 dd cc hcc _ _
      refine ⟨hcc.1, ?_⟩
      intro ord hord
      rcases List.mem_append.mp hord with hord | hord
      · exact hcc.2 ord hord
      · rw [List.mem_singleton.mp hord]
        exact hprenn o2 ho2
    · intro o2 ho2
      refine ⟨rfl, ?_⟩
      intro ord hord
      rw [List.mem_singleton.mp hord]
      exact hprenn o2 ho2
  have htp : tryPlace o (pre.foldl (placeOrder agg.container_volume) []) = none := by
    refine tryPlace_none_of o _ ?_
    intro p hp c hc hcond
    obtain ⟨hvol, hords⟩ := hINV p hp c hc
    have hsum : 0 ≤ (c.orders.map Order.total_volume).sum := by
      refine List.sum_nonneg ?_
      intro x hx
      obtain ⟨ord, hord, hxo⟩ := List.mem_map.mp hx
      rw [← hxo]
      exact hords ord hord
    have hleft : c.volume_left ≤ agg.container_volume := by
      rw [Container.volume_left, hvol]
      omega
    omega
  have hstep : placeOrder agg.container_volume
      (pre.foldl (placeOrder agg.container_volume) []) o =
      addToBucket o.destination (Container.mk agg.container_volume [o])
        (pre.foldl (placeOrder agg.container_volume) []) := by
    rw [placeOrder.eq_def, htp]
  have hneg : (Container.mk agg.container_volume [o]).volume_left < 0 := by
    simp only [Container.volume_left, List.map_cons, List.map_nil, List.sum_cons,
      List.sum_nil]
    omega
  have hkeep := foldl_placeOrder_keeps_container agg.container_volume o.destination
    (Container.mk agg.container_volume [o]) hneg post
    (placeOrder agg.container_volume (pre.foldl (placeOrder agg.container_volume) []) o)
    hpostnn
    (hstep ▸ addToBucket_mem_self o.destination (Container.mk agg.container_volume [o])
      (pre.foldl (placeOrder agg.container_volume) []))
  obtain ⟨cs, hcs, hc0⟩ := hkeep
  exact ⟨cs, hcs, Container.mk agg.container_volume [o], hc0, rfl, rfl, hneg⟩

/-- C4 witness at a concrete input: container_volume 3, one order of volume 5. -/
theorem prepare_containers_oversized_order_witness :
    (∀ ord ∈ [Order.mk [OrderItem.mk "X" "a" 1 5] (some "A")], 0 ≤ ord.total_volume)
    ∧ Order.mk [OrderItem.mk "X" "a" 1 5] (some "A") ∈
        [Order.mk [OrderItem.mk "X" "a" 1 5] (some "A")]
    ∧ (ContainerAggregator.mk 3 []).container_volume <
        (Order.mk [OrderItem.mk "X" "a" 1 5] (some "A")).total_volume
    ∧ ∃ cs, ((Order.mk [OrderItem.mk "X" "a" 1 5] (some "A")).destination, cs) ∈
        ((ContainerAggregator.mk 3 []).prepare_containers
          [Order.mk [OrderItem.mk "X" "a" 1 5] (some "A")]).1
      ∧ ∃ c ∈ cs, c.volume = (ContainerAggregator.mk 3 []).container_volume
        ∧ c.orders = [Order.mk [OrderItem.mk "X" "a" 1 5] (some "A")]
        ∧ c.volume_left < 0 := by
  refine ⟨by decide, by decide, by decide, ?_⟩
  exact prepare_containers_oversized_order (ContainerAggregator.mk 3 [])
    [Order.mk [OrderItem.mk "X" "a" 1 5] (some "A")]
    (Order.mk [OrderItem.mk "X" "a" 1 5] (some "A"))
    (by decide) (by decide) (by decide)

end OOP
